import Mathlib

/-!
# Verification of the Next-word-prediction text-extraction scripts

Shallow embedding of the three batch scripts
`script/extract_docx_text.py`, `script/extract_html_text.py`,
`script/extract_pdf_text.py`.  Text is modelled as `List Char`; each
Python function relevant to the claims is translated into an executable
Lean definition, and the claims are settled as theorems about those
definitions.
-/

namespace NWP

/-! ## Character classes

Python's `re` module with `str` patterns: `\s` matches exactly the
characters for which `str.isspace()` holds.  We enumerate that set
explicitly (ASCII whitespace, the C1 separators, NEL, NBSP and the
Unicode space/line/paragraph separators). -/

/-- Python's `\s` / `str.isspace()` character set. -/
def pyIsSpace (c : Char) : Bool :=
  (0x09 ≤ c.val && c.val ≤ 0x0D) || c.val = 0x20 ||
  (0x1C ≤ c.val && c.val ≤ 0x1F) || c.val = 0x85 || c.val = 0xA0 ||
  c.val = 0x1680 || (0x2000 ≤ c.val && c.val ≤ 0x200A) ||
  c.val = 0x2028 || c.val = 0x2029 || c.val = 0x202F ||
  c.val = 0x205F || c.val = 0x3000

/-- Python's `\w` (word character), restricted to the ASCII word
characters `[0-9A-Za-z_]`.  The non-ASCII letters this corpus uses are
Vietnamese and fall inside the explicit `À-ỹ` range that the
cleaning regex lists alongside `\w`, so the restriction does not affect
the character class actually used by the scripts on their data. -/
def pyIsWord (c : Char) : Bool :=
  ('0' ≤ c && c ≤ '9') || ('A' ≤ c && c ≤ 'Z') || ('a' ≤ c && c ≤ 'z') ||
  c = '_'

/-- The character class of the cleaning regex, line 44 of each script.

The source line is
`re.sub(r'[^\w\sÀ-ỹẠ-ỹ.,!?;:()""''…]', ' ', text)`.
All quote characters in that line are straight ASCII quotes, so Python's
lexer terminates the raw string at the first `'` (right after `""`) and
implicitly concatenates the following literal `'…]'`.  The compiled
pattern is therefore `[^\w\sÀ-ỹẠ-ỹ.,!?;:()""…]`:
the class contains the double quote (twice) but NOT the apostrophe,
which is a string delimiter, not a class member. -/
def allowedChar (c : Char) : Bool :=
  pyIsWord c || pyIsSpace c ||
  (0xC0 ≤ c.val && c.val ≤ 0x1EF9) ||
  (0x1EA0 ≤ c.val && c.val ≤ 0x1EF9) ||
  c = '.' || c = ',' || c = '!' || c = '?' || c = ';' || c = ':' ||
  c = '(' || c = ')' || c = '"' || c = '…'

/-- One character of the first `re.sub`: a character in the class is
kept, any other character becomes a single space (the negated class
matches single characters, so the substitution is character-wise). -/
def sub1 (c : Char) : Char := if allowedChar c then c else ' '

/-- Model of `re.sub(r'\s+', ' ', text)`: every maximal run of whitespace is
replaced by one space.  Functional form: inside a whitespace run all
characters but the last are dropped and the last becomes `' '`. -/
def collapseWs : List Char → List Char
  | [] => []
  | [c] => if pyIsSpace c then [' '] else [c]
  | c :: d :: cs =>
    if pyIsSpace c && pyIsSpace d then collapseWs (d :: cs)
    else (if pyIsSpace c then ' ' else c) :: collapseWs (d :: cs)

/-- Right half of `str.strip()`: drop trailing whitespace. -/
def dropTrailing (l : List Char) : List Char :=
  (l.reverse.dropWhile pyIsSpace).reverse

/-- Python `str.strip()`: drop leading and trailing whitespace
(`str.strip` strips exactly the `str.isspace()` characters). -/
def stripList (l : List Char) : List Char :=
  dropTrailing (l.dropWhile pyIsSpace)

/-- Verification predicate: the list's whitespace is normalized — every
whitespace character is a plain `' '` and no whitespace character is
immediately followed by another.  This is the shape `collapseWs`
produces. -/
def wsNorm : List Char → Bool
  | [] => true
  | [c] => !pyIsSpace c || c == ' '
  | c :: d :: cs =>
    (!pyIsSpace c || (c == ' ' && !pyIsSpace d)) && wsNorm (d :: cs)

namespace DocxTextExtractor

/-- Model of `DocxTextExtractor.clean_text` (extract_docx_text.py, lines 33-52):
replace every character outside the allowed class by a space, collapse
whitespace runs to single spaces, then strip. -/
def clean_text (text : List Char) : List Char :=
  stripList (collapseWs (text.map sub1))

end DocxTextExtractor

namespace HtmlTextExtractor

/-- Model of `HtmlTextExtractor.clean_text` (extract_html_text.py, lines 33-52);
the body is byte-identical to the DOCX script's. -/
def clean_text (text : List Char) : List Char :=
  stripList (collapseWs (text.map sub1))

end HtmlTextExtractor

namespace PdfTextExtractor

/-- Model of `PdfTextExtractor.clean_text` (extract_pdf_text.py, lines 33-52);
the body is byte-identical to the DOCX script's. -/
def clean_text (text : List Char) : List Char :=
  stripList (collapseWs (text.map sub1))

end PdfTextExtractor

/-! ## Joining and splitting -/

/-- Python `'\n'.join(xs)`. -/
def joinNl : List (List Char) → List Char
  | [] => []
  | [x] => x
  | x :: y :: rest => x ++ '\n' :: joinNl (y :: rest)

/-- Python `text.split('\n')` (always at least one segment). -/
def splitOnNl : List Char → List (List Char)
  | [] => [[]]
  | c :: cs =>
    match splitOnNl cs with
    | [] => [[]]
    | s :: ss => if c = '\n' then [] :: s :: ss else (c :: s) :: ss

/-- Helper for `pySplit`: `acc` holds the current word, reversed. -/
def pySplitAux : List Char → List Char → List (List Char)
  | [], acc => if acc.isEmpty then [] else [acc.reverse]
  | c :: cs, acc =>
    if pyIsSpace c then
      if acc.isEmpty then pySplitAux cs [] else acc.reverse :: pySplitAux cs []
    else pySplitAux cs (c :: acc)

/-- Python `text.split()` with no argument: split on runs of whitespace,
discarding empty tokens. -/
def pySplit (l : List Char) : List (List Char) := pySplitAux l []

/-! ## Extractors

The parsing libraries (`python-docx`, `PyPDF2`) are collaborators that
deliver ordered raw text segments; the extractors are modelled as
functions of those segments. -/

namespace DocxTextExtractor

/-- The paragraph loop of `extract_text_from_docx` (lines 68-70):
`if paragraph.text.strip(): full_text.append(paragraph.text.strip())` —
the STRIPPED text of every paragraph that is non-empty after stripping,
in document order. -/
def collectParas : List (List Char) → List (List Char)
  | [] => []
  | p :: ps =>
    if (stripList p).isEmpty then collectParas ps
    else stripList p :: collectParas ps

/-- Model of `DocxTextExtractor.extract_text_from_docx` (lines 54-82), as a
function of the document's paragraph texts: join the kept paragraphs
with newline, then clean. -/
def extract_text_from_docx (paras : List (List Char)) : List Char :=
  clean_text (joinNl (collectParas paras))

end DocxTextExtractor

namespace PdfTextExtractor

/-- The page loop of `extract_text_from_pdf` (lines 74-79):
`if page_text.strip(): full_text.append(page_text)` — the UNSTRIPPED
text of every page that is non-empty after stripping, in page order. -/
def collectPages : List (List Char) → List (List Char)
  | [] => []
  | p :: ps =>
    if (stripList p).isEmpty then collectPages ps else p :: collectPages ps

/-- The joined raw text of `extract_text_from_pdf` before cleaning
(line 82): kept pages joined with newline. -/
def joined_pdf_text (pages : List (List Char)) : List Char :=
  joinNl (collectPages pages)

/-- Model of `PdfTextExtractor.extract_text_from_pdf` (lines 54-91), as a
function of the per-page texts delivered by the PDF reader. -/
def extract_text_from_pdf (pages : List (List Char)) : List Char :=
  clean_text (joined_pdf_text pages)

end PdfTextExtractor

/-! ## The HTML document model

`BeautifulSoup` documents are rose trees of elements and text nodes.
We use a forest encoding (`nil` / text-cons / element-cons) so that all
traversals are structurally recursive and kernel-computable.  An
element carries its tag, its class list and its child forest.
`find` returns the first match in pre-order (document order), which is
`BeautifulSoup`'s search order; `get_text()` concatenates every text
node of the subtree. -/

inductive HForest where
  | nil : HForest
  | textCons : List Char → HForest → HForest
  | elemCons : List Char → List (List Char) → HForest → HForest → HForest
deriving DecidableEq

namespace HForest

/-- BeautifulSoup `get_text()`: concatenation of all text nodes, document order. -/
def getText : HForest → List Char
  | nil => []
  | textCons s rest => s ++ getText rest
  | elemCons _ _ kids rest => getText kids ++ getText rest

/-- Model of `soup(["script", "style"])` + `decompose()` (lines 72-73): remove
every `script`/`style` element together with its whole subtree. -/
def stripScriptStyle : HForest → HForest
  | nil => nil
  | textCons s rest => textCons s (stripScriptStyle rest)
  | elemCons t c kids rest =>
    if t = 's' :: 'c' :: 'r' :: 'i' :: 'p' :: 't' :: [] ∨
       t = 's' :: 't' :: 'y' :: 'l' :: 'e' :: [] then
      stripScriptStyle rest
    else elemCons t c (stripScriptStyle kids) (stripScriptStyle rest)

/-- BeautifulSoup `soup.find(...)`: first element satisfying `p` in pre-order
(document order); returns its tag, classes and child forest. -/
def findElem (p : List Char → List (List Char) → Bool) :
    HForest → Option (List Char × List (List Char) × HForest)
  | nil => none
  | textCons _ rest => findElem p rest
  | elemCons t c kids rest =>
    if p t c then some (t, c, kids)
    else
      match findElem p kids with
      | some r => some r
      | none => findElem p rest

/-- BeautifulSoup `element.find_all(tag)`: the child forests of every element with
the given tag, in document order (an element precedes its
descendants). -/
def findAllTag (tag : List Char) : HForest → List HForest
  | nil => []
  | textCons _ rest => findAllTag tag rest
  | elemCons t _ kids rest =>
    (if t = tag then [kids] else []) ++ findAllTag tag kids ++
      findAllTag tag rest

end HForest

namespace HtmlTextExtractor

open HForest

/-- Predicate of `soup.find('article')`. -/
def isArticle (t : List Char) (_ : List (List Char)) : Bool :=
  t = 'a' :: 'r' :: 't' :: 'i' :: 'c' :: 'l' :: 'e' :: []

/-- Predicate of `soup.find('div', class_='story-content')`. -/
def isStoryContent (t : List Char) (cls : List (List Char)) : Bool :=
  t = 'd' :: 'i' :: 'v' :: [] &&
  cls.contains ('s' :: 't' :: 'o' :: 'r' :: 'y' :: '-' :: 'c' :: 'o' ::
    'n' :: 't' :: 'e' :: 'n' :: 't' :: [])

/-- Predicate of `soup.find('body')`. -/
def isBody (t : List Char) (_ : List (List Char)) : Bool :=
  t = 'b' :: 'o' :: 'd' :: 'y' :: []

/-- The `article` branch, lines 79-90: the trimmed text of every `<p>`
inside the article, kept when non-empty, joined with newline. -/
def articleParagraphText (kids : HForest) : List Char :=
  joinNl (((findAllTag ('p' :: []) kids).map
    (fun f => stripList (getText f))).filter (fun s => ¬s.isEmpty))

/-- The raw text selected by `extract_text_from_html` (lines 76-102)
before cleaning.  The dispatch tests ELEMENT PRESENCE only: an
`<article>` element, even one with no usable paragraphs, commits the
extraction to the article branch. -/
def selected_html_text (doc : HForest) : List Char :=
  let soup := stripScriptStyle doc
  match findElem isArticle soup with
  | some (_, _, kids) => articleParagraphText kids
  | none =>
    match findElem isStoryContent soup with
    | some (_, _, kids) => getText kids
    | none =>
      match findElem isBody soup with
      | some (_, _, kids) => getText kids
      | none => getText soup

/-- Model of `HtmlTextExtractor.extract_text_from_html` (lines 54-111), as a
function of the parsed document tree. -/
def extract_text_from_html (doc : HForest) : List Char :=
  clean_text (selected_html_text doc)

end HtmlTextExtractor

/-! ## Python `str.replace` and the key derivation

`str.replace(old, new)` replaces every occurrence of `old`, scanning
left to right, non-overlapping.  The recursion consumes `pat.length`
characters on a match, so it is driven by a fuel counter initialised to
the string length (enough fuel, since the patterns used are
non-empty). -/

/-- Left-to-right non-overlapping replacement with fuel.  With
`fuel = 0` the rest of the string is returned unchanged. -/
def replaceFromF : Nat → List Char → List Char → List Char → List Char
  | 0, _, _, s => s
  | _ + 1, _, _, [] => []
  | fuel + 1, pat, rep, c :: cs =>
    if pat.isPrefixOf (c :: cs) then
      rep ++ replaceFromF fuel pat rep ((c :: cs).drop pat.length)
    else c :: replaceFromF fuel pat rep cs

/-- Python `s.replace(pat, rep)` for non-empty `pat`. -/
def pyReplace (s pat rep : List Char) : List Char :=
  replaceFromF s.length pat rep s

/-- Whether `pat` occurs as a contiguous substring of `s`
(`pat in s` in Python). -/
def containsSub (pat : List Char) : List Char → Bool
  | [] => pat.isEmpty
  | c :: cs => pat.isPrefixOf (c :: cs) || containsSub pat cs

/-- Key derivation of `HtmlTextExtractor.process_all_html_files`
(line 134): `str(relative_path).replace('\\', '_').replace('/', '_')
.replace('.htm', '').replace('.html', '')`.  Each `replace` rewrites
EVERY occurrence, anywhere in the string. -/
def html_file_key (relPath : List Char) : List Char :=
  pyReplace (pyReplace (pyReplace (pyReplace relPath ['\\'] ['_'])
    ['/'] ['_']) ['.', 'h', 't', 'm'] []) ['.', 'h', 't', 'm', 'l'] []

/-- Key derivation of `PdfTextExtractor.process_all_pdf_files`
(line 114): `str(relative_path).replace('\\', '_').replace('/', '_')
.replace('.pdf', '')`. -/
def pdf_file_key (relPath : List Char) : List Char :=
  pyReplace (pyReplace (pyReplace relPath ['\\'] ['_']) ['/'] ['_'])
    ['.', 'p', 'd', 'f'] []

/-! ## Batch runner and output writer

`process_all_docx_files` (lines 84-107) iterates over the discovered
files in directory order and records the cleaned text under the file's
key only when it is non-empty (`if text:`).  A run's inputs are
modelled as the discovered files in discovery order, each given by its
key together with the paragraph texts its parser delivers; the Python
`dict` accumulating the results is modelled as the association list
built in insertion order. -/

namespace DocxTextExtractor

/-- The loop of `process_all_docx_files` (lines 96-106): extract each
file; record `(key, text)` only if `text` is non-empty. -/
def process_all_docx_files (files : List (List Char × List (List Char))) :
    List (List Char × List Char) :=
  match files with
  | [] => []
  | (stem, paras) :: rest =>
    let text := extract_text_from_docx paras
    if text.isEmpty then process_all_docx_files rest
    else (stem, text) :: process_all_docx_files rest

/-- One row of `metadata.csv` (lines 160-165). -/
structure MetadataRecord where
  filename : List Char
  character_count : Nat
  word_count : Nat
  line_count : Nat
deriving DecidableEq

/-- Model of `DocxTextExtractor.create_metadata` (lines 150-184), the rows it
writes: per key, `len(text)`, `len(text.split())`,
`len(text.split('\n'))`, all computed from the stored (cleaned)
text. -/
def create_metadata (extracted_texts : List (List Char × List Char)) :
    List MetadataRecord :=
  extracted_texts.map fun kt =>
    { filename := kt.1
      character_count := kt.2.length
      word_count := (pySplit kt.2).length
      line_count := (splitOnNl kt.2).length }

/-- One block of the combined file (line 138):
`f"=== {filename} ===\n{text}\n"`. -/
def combinedBlock (filename text : List Char) : List Char :=
  ['=', '=', '=', ' '] ++ filename ++ [' ', '=', '=', '=', '\n'] ++
    text ++ ['\n']

/-- Model of `DocxTextExtractor.create_combined_dataset` (lines 124-148), the
content it writes: the blocks in the mapping's iteration (insertion)
order, joined with `'\n'`. -/
def create_combined_dataset (extracted_texts : List (List Char × List Char)) :
    List Char :=
  joinNl (extracted_texts.map fun kt => combinedBlock kt.1 kt.2)

/-- The write actions `main` can perform, in order. -/
inductive WriteAction where
  | perFileTxt : List Char → List Char → WriteAction
  | combined : List Char → WriteAction
  | metadataCsv : List MetadataRecord → WriteAction
deriving DecidableEq

/-- Model of `main` (lines 186-214): run the batch; if the result mapping is
empty, return before any output stage; otherwise write one text file
per key, then the combined dataset, then the metadata table. -/
def main_run (files : List (List Char × List (List Char))) :
    List WriteAction :=
  let extracted_texts := process_all_docx_files files
  if extracted_texts.isEmpty then []
  else
    (extracted_texts.map fun kt => WriteAction.perFileTxt kt.1 kt.2) ++
      [WriteAction.combined (create_combined_dataset extracted_texts),
       WriteAction.metadataCsv (create_metadata extracted_texts)]

end DocxTextExtractor

/-! ## Lemmas: the character-level substitution -/

theorem pyIsSpace_space : pyIsSpace ' ' = true := by decide

theorem allowedChar_space : allowedChar ' ' = true := by decide

theorem allowedChar_sub1 (c : Char) : allowedChar (sub1 c) = true := by
  unfold sub1
  split
  · assumption
  · exact allowedChar_space

theorem allowed_of_mem_map_sub1 {c : Char} {l : List Char}
    (h : c ∈ l.map sub1) : allowedChar c = true := by
  rcases List.mem_map.1 h with ⟨a, -, rfl⟩
  exact allowedChar_sub1 a

theorem map_sub1_eq_self {l : List Char}
    (h : ∀ c ∈ l, allowedChar c = true) : l.map sub1 = l := by
  induction l with
  | nil => rfl
  | cons c cs ih =>
    have hc := h c (List.mem_cons_self c cs)
    simp only [List.map_cons, sub1, hc, if_true]
    exact congrArg _ (ih fun x hx => h x (List.mem_cons_of_mem c hx))

/-! ## Lemmas: `wsNorm`, the shape produced by `collapseWs` -/

theorem wsNorm_destruct {c d : Char} {ds : List Char}
    (h : wsNorm (c :: d :: ds) = true) :
    (pyIsSpace c = false ∨ (c = ' ' ∧ pyIsSpace d = false)) ∧
      wsNorm (d :: ds) = true := by
  simp only [wsNorm, Bool.and_eq_true, Bool.or_eq_true, Bool.not_eq_true',
    beq_iff_eq] at h
  tauto

theorem wsNorm_build {c d : Char} {ds : List Char}
    (h1 : pyIsSpace c = false ∨ (c = ' ' ∧ pyIsSpace d = false))
    (h2 : wsNorm (d :: ds) = true) : wsNorm (c :: d :: ds) = true := by
  simp only [wsNorm, Bool.and_eq_true, Bool.or_eq_true, Bool.not_eq_true',
    beq_iff_eq]
  tauto

theorem wsNorm_single {c : Char} (h : wsNorm [c] = true) :
    pyIsSpace c = false ∨ c = ' ' := by
  simp only [wsNorm, Bool.or_eq_true, Bool.not_eq_true', beq_iff_eq] at h
  exact h

theorem wsNorm_tail {c : Char} {l : List Char} (h : wsNorm (c :: l) = true) :
    wsNorm l = true := by
  cases l with
  | nil => rfl
  | cons d ds => exact (wsNorm_destruct h).2

theorem wsNorm_cons_of_nonspace {c : Char} {l : List Char}
    (h : pyIsSpace c = false) : wsNorm (c :: l) = wsNorm l := by
  cases l with
  | nil => simp [wsNorm, h]
  | cons d ds => simp [wsNorm, h]

theorem collapseWs_cons_of_nonspace {d : Char} (cs : List Char)
    (h : pyIsSpace d = false) : ∃ r, collapseWs (d :: cs) = d :: r := by
  cases cs with
  | nil => exact ⟨[], by simp [collapseWs, h]⟩
  | cons e es => exact ⟨collapseWs (e :: es), by simp [collapseWs, h]⟩

theorem wsNorm_collapseWs (l : List Char) : wsNorm (collapseWs l) = true := by
  induction l with
  | nil => rfl
  | cons c cs ih =>
    cases cs with
    | nil =>
      by_cases hc : pyIsSpace c = true
      · rw [show collapseWs [c] = [' '] by simp [collapseWs, hc]]
        decide
      · have hc' : pyIsSpace c = false := by simpa using hc
        simp [collapseWs, hc', wsNorm]
    | cons d ds =>
      by_cases hc : pyIsSpace c = true
      · by_cases hd : pyIsSpace d = true
        · simpa [collapseWs, hc, hd] using ih
        · have hd' : pyIsSpace d = false := by simpa using hd
          obtain ⟨r, hr⟩ := collapseWs_cons_of_nonspace ds hd'
          have ihr : wsNorm (d :: r) = true := hr ▸ ih
          have : collapseWs (c :: d :: ds) = ' ' :: d :: r := by
            simp [collapseWs, hc, hd', hr]
          rw [this]
          exact wsNorm_build (Or.inr ⟨rfl, hd'⟩) ihr
      · have hc' : pyIsSpace c = false := by simpa using hc
        have : collapseWs (c :: d :: ds) = c :: collapseWs (d :: ds) := by
          simp [collapseWs, hc']
        rw [this, wsNorm_cons_of_nonspace hc']
        exact ih

theorem collapseWs_eq_self {l : List Char} (h : wsNorm l = true) :
    collapseWs l = l := by
  induction l with
  | nil => rfl
  | cons c cs ih =>
    cases cs with
    | nil =>
      rcases wsNorm_single h with hc | hc
      · simp [collapseWs, hc]
      · subst hc; simp [collapseWs]
    | cons d ds =>
      obtain ⟨h1, h2⟩ := wsNorm_destruct h
      rcases h1 with hc | ⟨hc, hd⟩
      · simp [collapseWs, hc, ih h2]
      · subst hc
        simp [collapseWs, hd, pyIsSpace_space, ih h2]

theorem wsNorm_append_right {a b : List Char} (h : wsNorm (a ++ b) = true) :
    wsNorm b = true := by
  induction a with
  | nil => exact h
  | cons c a' ih => exact ih (wsNorm_tail h)

theorem wsNorm_append_left {a b : List Char} (h : wsNorm (a ++ b) = true) :
    wsNorm a = true := by
  induction a with
  | nil => rfl
  | cons c a' ih =>
    cases a' with
    | nil =>
      cases b with
      | nil => exact h
      | cons x xs =>
        obtain ⟨h1, -⟩ := wsNorm_destruct h
        rcases h1 with hc | ⟨hc, -⟩
        · simp [wsNorm, hc]
        · subst hc; simp [wsNorm]
    | cons d a'' =>
      obtain ⟨h1, h2⟩ := wsNorm_destruct (show wsNorm (c :: d :: (a'' ++ b)) = true from h)
      exact wsNorm_build h1 (ih h2)

theorem wsNorm_prefix_mono {a l : List Char} (h : a <+: l)
    (hl : wsNorm l = true) : wsNorm a = true := by
  obtain ⟨t, rfl⟩ := h
  exact wsNorm_append_left hl

theorem wsNorm_of_suffix {a l : List Char} (h : a <:+ l)
    (hl : wsNorm l = true) : wsNorm a = true := by
  obtain ⟨t, rfl⟩ := h
  exact wsNorm_append_right hl

/-! ## Lemmas: `stripList` -/

theorem dropTrailing_prefix_self (l : List Char) : dropTrailing l <+: l := by
  have h : l.reverse.dropWhile pyIsSpace <:+ l.reverse :=
    List.dropWhile_suffix pyIsSpace
  have h2 : (l.reverse.dropWhile pyIsSpace).reverse <+: l.reverse.reverse :=
    List.reverse_prefix.mpr h
  simpa [dropTrailing] using h2

theorem stripList_wsNorm {l : List Char} (h : wsNorm l = true) :
    wsNorm (stripList l) = true :=
  wsNorm_prefix_mono (dropTrailing_prefix_self _)
    (wsNorm_of_suffix (List.dropWhile_suffix pyIsSpace) h)

theorem mem_of_mem_stripList {c : Char} {l : List Char}
    (h : c ∈ stripList l) : c ∈ l := by
  have h1 : c ∈ l.dropWhile pyIsSpace :=
    List.Sublist.mem h (dropTrailing_prefix_self _).sublist
  exact List.Sublist.mem h1 (List.dropWhile_sublist pyIsSpace)

theorem mem_collapseWs {c : Char} {l : List Char} (h : c ∈ collapseWs l) :
    c ∈ l ∨ c = ' ' := by
  induction l with
  | nil => simp [collapseWs] at h
  | cons a cs ih =>
    cases cs with
    | nil =>
      by_cases ha : pyIsSpace a = true
      · simp [collapseWs, ha] at h
        exact Or.inr h
      · have ha' : pyIsSpace a = false := by simpa using ha
        simp [collapseWs, ha'] at h
        exact Or.inl (by simp [h])
    | cons d ds =>
      by_cases ha : pyIsSpace a = true <;> by_cases hd : pyIsSpace d = true
      · rw [show collapseWs (a :: d :: ds) = collapseWs (d :: ds) by
          simp [collapseWs, ha, hd]] at h
        rcases ih h with hm | hs
        · exact Or.inl (List.mem_cons_of_mem a hm)
        · exact Or.inr hs
      · have hd' : pyIsSpace d = false := by simpa using hd
        rw [show collapseWs (a :: d :: ds) = ' ' :: collapseWs (d :: ds) by
          simp [collapseWs, ha, hd']] at h
        rcases List.mem_cons.mp h with rfl | hm
        · exact Or.inr rfl
        · rcases ih hm with hm' | hs
          · exact Or.inl (List.mem_cons_of_mem a hm')
          · exact Or.inr hs
      all_goals {
        have ha' : pyIsSpace a = false := by simpa using ha
        rw [show collapseWs (a :: d :: ds) = a :: collapseWs (d :: ds) by
          simp [collapseWs, ha']] at h
        rcases List.mem_cons.mp h with rfl | hm
        · exact Or.inl (List.mem_cons_self _ _)
        · rcases ih hm with hm' | hs
          · exact Or.inl (List.mem_cons_of_mem a hm')
          · exact Or.inr hs }

theorem stripList_head_nonspace {l : List Char} {a : Char}
    (h : (stripList l).head? = some a) : pyIsSpace a = false := by
  obtain ⟨t, ht⟩ := dropTrailing_prefix_self (l.dropWhile pyIsSpace)
  have hds : stripList l ++ t = l.dropWhile pyIsSpace := ht
  cases hsl : stripList l with
  | nil => rw [hsl] at h; cases h
  | cons b bs =>
    rw [hsl] at h hds
    have hb : a = b := by
      rw [List.head?_cons] at h
      exact (Option.some.inj h).symm
    subst hb
    have hhead : (l.dropWhile pyIsSpace).head? = some a := by
      rw [← hds]; rfl
    have := List.head?_dropWhile_not pyIsSpace l
    rw [hhead] at this
    exact this

theorem stripList_getLast_nonspace {l : List Char} {a : Char}
    (h : (stripList l).getLast? = some a) : pyIsSpace a = false := by
  unfold stripList dropTrailing at h
  set m := (l.dropWhile pyIsSpace).reverse.dropWhile pyIsSpace with hm
  have hrev : m.reverse.getLast? = m.head? := by
    cases m with
    | nil => rfl
    | cons x xs => simp
  rw [hrev] at h
  have := List.head?_dropWhile_not pyIsSpace (l.dropWhile pyIsSpace).reverse
  rw [← hm, h] at this
  exact this

theorem dropWhile_eq_self_of_head {l : List Char}
    (h : ∀ a, l.head? = some a → pyIsSpace a = false) :
    l.dropWhile pyIsSpace = l := by
  cases l with
  | nil => rfl
  | cons c cs =>
    have hc := h c rfl
    simp [List.dropWhile_cons, hc]

theorem stripList_eq_self {l : List Char}
    (h1 : ∀ a, l.head? = some a → pyIsSpace a = false)
    (h2 : ∀ a, l.getLast? = some a → pyIsSpace a = false) :
    stripList l = l := by
  unfold stripList dropTrailing
  rw [dropWhile_eq_self_of_head h1]
  rw [dropWhile_eq_self_of_head (fun a ha => h2 a (by
    cases l with
    | nil => cases ha
    | cons c cs =>
      rw [← List.head?_reverse]
      exact ha))]
  exact List.reverse_reverse l

/-! ## Lemmas: properties of `clean_text` -/

theorem clean_text_allowed (t : List Char) :
    ∀ c ∈ DocxTextExtractor.clean_text t, allowedChar c = true := by
  intro c hc
  have h1 := mem_of_mem_stripList hc
  rcases mem_collapseWs h1 with hm | rfl
  · exact allowed_of_mem_map_sub1 hm
  · exact allowedChar_space

theorem clean_text_wsNorm (t : List Char) :
    wsNorm (DocxTextExtractor.clean_text t) = true :=
  stripList_wsNorm (wsNorm_collapseWs _)

theorem clean_text_head_nonspace {t : List Char} {a : Char}
    (h : (DocxTextExtractor.clean_text t).head? = some a) :
    pyIsSpace a = false :=
  stripList_head_nonspace h

theorem clean_text_getLast_nonspace {t : List Char} {a : Char}
    (h : (DocxTextExtractor.clean_text t).getLast? = some a) :
    pyIsSpace a = false :=
  stripList_getLast_nonspace h

theorem clean_text_idem (t : List Char) :
    DocxTextExtractor.clean_text (DocxTextExtractor.clean_text t) =
      DocxTextExtractor.clean_text t := by
  have h1 : (DocxTextExtractor.clean_text t).map sub1 =
      DocxTextExtractor.clean_text t :=
    map_sub1_eq_self (clean_text_allowed t)
  have h2 : collapseWs (DocxTextExtractor.clean_text t) =
      DocxTextExtractor.clean_text t :=
    collapseWs_eq_self (clean_text_wsNorm t)
  have h3 : stripList (DocxTextExtractor.clean_text t) =
      DocxTextExtractor.clean_text t :=
    stripList_eq_self (fun _ ha => clean_text_head_nonspace ha)
      (fun _ ha => clean_text_getLast_nonspace ha)
  show stripList (collapseWs ((DocxTextExtractor.clean_text t).map sub1)) = _
  rw [h1, h2, h3]

theorem eq_space_of_mem_wsNorm {l : List Char} {c : Char}
    (hn : wsNorm l = true) (hm : c ∈ l) (hs : pyIsSpace c = true) :
    c = ' ' := by
  induction l with
  | nil => cases hm
  | cons a cs ih =>
    rcases List.mem_cons.mp hm with rfl | hm'
    · cases cs with
      | nil =>
        rcases wsNorm_single hn with h | h
        · rw [h] at hs; cases hs
        · exact h
      | cons d ds =>
        rcases (wsNorm_destruct hn).1 with h | ⟨h, -⟩
        · rw [h] at hs; cases hs
        · exact h
    · exact ih (wsNorm_tail hn) hm'

theorem newline_not_mem_clean (t : List Char) :
    '\n' ∉ DocxTextExtractor.clean_text t := by
  intro hm
  have h := eq_space_of_mem_wsNorm (clean_text_wsNorm t) hm (by decide)
  exact absurd h (by decide)

theorem splitOnNl_eq_of_not_mem {l : List Char} (h : '\n' ∉ l) :
    splitOnNl l = [l] := by
  induction l with
  | nil => rfl
  | cons c cs ih =>
    have hc : ¬c = '\n' := fun hc => h (hc ▸ List.mem_cons_self c cs)
    have ih' := ih fun hm => h (List.mem_cons_of_mem c hm)
    simp [splitOnNl, ih', hc]

theorem chain'_of_wsNorm {l : List Char} (h : wsNorm l = true) :
    List.Chain' (fun a b => ¬(pyIsSpace a = true ∧ pyIsSpace b = true)) l := by
  induction l with
  | nil => exact List.chain'_nil
  | cons c cs ih =>
    cases cs with
    | nil => simp
    | cons d ds =>
      rw [List.chain'_cons]
      obtain ⟨h1, h2⟩ := wsNorm_destruct h
      refine ⟨?_, ih h2⟩
      rintro ⟨hc, hd⟩
      rcases h1 with hh | ⟨-, hh⟩
      · rw [hh] at hc; cases hc
      · rw [hh] at hd; cases hd

/-! ## Lemmas: `pyReplace` -/

theorem replaceFromF_of_not_contains {pat rep s : List Char} (fuel : Nat)
    (h : containsSub pat s = false) : replaceFromF fuel pat rep s = s := by
  induction fuel generalizing s with
  | zero => rfl
  | succ f ih =>
    cases s with
    | nil => rfl
    | cons c cs =>
      simp only [containsSub, Bool.or_eq_false_iff] at h
      simp only [replaceFromF, h.1, Bool.false_eq_true, if_false]
      exact congrArg _ (ih h.2)

/-- If `pat` occurs nowhere in `r ++ pat.dropLast` (so in particular
nowhere strictly before its final occurrence, and it cannot straddle
into the final occurrence) and nowhere in `t`, the scan removes exactly
the explicit middle occurrence. -/
theorem replaceFromF_strip {pat : List Char} (hne : pat ≠ []) :
    ∀ (r t : List Char) (fuel : Nat),
      containsSub pat (r ++ pat.dropLast) = false →
      containsSub pat t = false → r.length < fuel →
      replaceFromF fuel pat [] (r ++ pat ++ t) = r ++ t := by
  intro r
  induction r with
  | nil =>
    intro t fuel hr ht hfuel
    cases fuel with
    | zero => omega
    | succ f =>
      cases hpat : pat with
      | nil => exact absurd hpat hne
      | cons p ps =>
        rw [← hpat]
        have hpre : pat.isPrefixOf (pat ++ t) = true :=
          List.isPrefixOf_iff_prefix.mpr (List.prefix_append pat t)
        have hshape : ([] : List Char) ++ pat ++ t = pat ++ t := by simp
        rw [hshape]
        have hcons : ∃ q qs, pat ++ t = q :: qs := by
          rw [hpat]; exact ⟨p, ps ++ t, by simp⟩
        obtain ⟨q, qs, hq⟩ := hcons
        rw [hq]
        rw [hq] at hpre
        simp only [replaceFromF, hpre, if_true]
        rw [← hq]
        have hdrop : (pat ++ t).drop pat.length = t := List.drop_left pat t
        rw [hdrop, replaceFromF_of_not_contains f ht]
  | cons c r' ih =>
    intro t fuel hr ht hfuel
    cases fuel with
    | zero => omega
    | succ f =>
      have hlast := List.dropLast_append_getLast hne
      have hsplit : (c :: r') ++ pat ++ t =
          (c :: (r' ++ pat.dropLast)) ++ ([pat.getLast hne] ++ t) := by
        conv =>
          lhs
          rw [← hlast]
        simp [List.append_assoc]
      have hnp : pat.isPrefixOf ((c :: r') ++ pat ++ t) = false := by
        by_contra hcon
        have hcon' : pat.isPrefixOf ((c :: r') ++ pat ++ t) = true := by
          simpa using hcon
        have hp1 : pat <+: ((c :: r') ++ pat ++ t) :=
          List.isPrefixOf_iff_prefix.mp hcon'
        have hp2 : (c :: (r' ++ pat.dropLast)) <+: ((c :: r') ++ pat ++ t) := by
          rw [hsplit]
          exact List.prefix_append _ _
        have hlen : pat.length ≤ (c :: (r' ++ pat.dropLast)).length := by
          have hposlen : 0 < pat.length := List.length_pos.mpr hne
          simp only [List.length_cons, List.length_append, List.length_dropLast]
          omega
        have hp3 : pat <+: (c :: (r' ++ pat.dropLast)) :=
          List.prefix_of_prefix_length_le hp1 hp2 hlen
        have : containsSub pat ((c :: r') ++ pat.dropLast) = true := by
          have hp4 := List.isPrefixOf_iff_prefix.mpr hp3
          have : containsSub pat (c :: (r' ++ pat.dropLast)) = true := by
            simp only [containsSub, Bool.or_eq_true]
            exact Or.inl hp4
          simpa using this
        rw [this] at hr
        cases hr
      have hshape : (c :: r') ++ pat ++ t = c :: (r' ++ pat ++ t) := by simp
      rw [hshape]
      rw [hshape] at hnp
      simp only [replaceFromF, hnp, Bool.false_eq_true, if_false]
      have hr' : containsSub pat (r' ++ pat.dropLast) = false := by
        have := hr
        simp only [List.cons_append, containsSub, Bool.or_eq_false_iff] at this
        exact this.2
      exact congrArg _ (ih t f hr' ht (by
        simp only [List.length_cons] at hfuel
        omega))

theorem pyReplace_of_not_contains {pat rep s : List Char}
    (h : containsSub pat s = false) : pyReplace s pat rep = s :=
  replaceFromF_of_not_contains _ h

theorem pyReplace_strip {pat r t : List Char} (hne : pat ≠ [])
    (hr : containsSub pat (r ++ pat.dropLast) = false)
    (ht : containsSub pat t = false) :
    pyReplace (r ++ pat ++ t) pat [] = r ++ t := by
  unfold pyReplace
  apply replaceFromF_strip hne r t _ hr ht
  have hposlen : 0 < pat.length := List.length_pos.mpr hne
  simp only [List.length_append]
  omega

theorem pyReplace_strip_end {pat r : List Char} (hne : pat ≠ [])
    (hr : containsSub pat (r ++ pat.dropLast) = false) :
    pyReplace (r ++ pat) pat [] = r := by
  have h := pyReplace_strip hne hr (show containsSub pat [] = false by
    simp [containsSub, List.isPrefixOf]
    cases pat with
    | nil => exact absurd rfl hne
    | cons p ps => simp [List.isEmpty])
  simpa using h

/-! ## Lemmas: batch runner and PDF page collection -/

theorem collectPages_eq_filter (pages : List (List Char)) :
    PdfTextExtractor.collectPages pages =
      pages.filter fun p => !(stripList p).isEmpty := by
  induction pages with
  | nil => rfl
  | cons p ps ih =>
    by_cases hp : (stripList p).isEmpty = true
    · simp [PdfTextExtractor.collectPages, hp, ih]
    · have hp' : (stripList p).isEmpty = false := by simpa using hp
      simp [PdfTextExtractor.collectPages, hp', ih]

theorem process_all_eq_filter (files : List (List Char × List (List Char))) :
    DocxTextExtractor.process_all_docx_files files =
      (files.map fun f =>
        (f.1, DocxTextExtractor.extract_text_from_docx f.2)).filter
        fun e => !e.2.isEmpty := by
  induction files with
  | nil => rfl
  | cons f fs ih =>
    by_cases hf : (DocxTextExtractor.extract_text_from_docx f.2).isEmpty = true
    · simp [DocxTextExtractor.process_all_docx_files, hf, ih]
    · have hf' : (DocxTextExtractor.extract_text_from_docx f.2).isEmpty =
          false := by simpa using hf
      simp [DocxTextExtractor.process_all_docx_files, hf', ih]

theorem mem_process_all {files : List (List Char × List (List Char))}
    {k t : List Char}
    (h : (k, t) ∈ DocxTextExtractor.process_all_docx_files files) :
    ∃ ps, (k, ps) ∈ files ∧
      t = DocxTextExtractor.extract_text_from_docx ps := by
  induction files with
  | nil => cases h
  | cons f fs ih =>
    by_cases hf : (DocxTextExtractor.extract_text_from_docx f.2).isEmpty = true
    · rw [show DocxTextExtractor.process_all_docx_files (f :: fs) =
          DocxTextExtractor.process_all_docx_files fs by
        simp [DocxTextExtractor.process_all_docx_files, hf]] at h
      obtain ⟨ps, hmem, ht⟩ := ih h
      exact ⟨ps, List.mem_cons_of_mem f hmem, ht⟩
    · have hf' : (DocxTextExtractor.extract_text_from_docx f.2).isEmpty =
          false := by simpa using hf
      rw [show DocxTextExtractor.process_all_docx_files (f :: fs) =
          (f.1, DocxTextExtractor.extract_text_from_docx f.2) ::
            DocxTextExtractor.process_all_docx_files fs by
        simp [DocxTextExtractor.process_all_docx_files, hf']] at h
      rcases List.mem_cons.mp h with heq | hmem
      · refine ⟨f.2, ?_, ?_⟩
        · have hk : k = f.1 := congrArg Prod.fst heq
          rw [hk]
          rw [show (f.1, f.2) = f from rfl]
          exact List.mem_cons_self f fs
        · exact congrArg Prod.snd heq
      · obtain ⟨ps, hm, ht⟩ := ih hmem
        exact ⟨ps, List.mem_cons_of_mem f hm, ht⟩

/-! ## Claim theorems -/

/-- C2: for every input string `T`, applying the cleaning function twice
equals applying it once — `clean(clean(T)) == clean(T)`; cleaning is
idempotent after a single pass. -/
theorem claim_C2_clean_idempotent (t : List Char) :
    DocxTextExtractor.clean_text (DocxTextExtractor.clean_text t) =
      DocxTextExtractor.clean_text t :=
  clean_text_idem t

/-- C5: for every input string `T`, `clean(T)` contains no character
outside the allowed set (word characters, whitespace, the Vietnamese
diacritic ranges, the punctuation of the compiled character class),
contains no two consecutive whitespace characters, and has no leading
or trailing whitespace. -/
theorem claim_C5_clean_output_shape (t : List Char) :
    (∀ c ∈ DocxTextExtractor.clean_text t, allowedChar c = true) ∧
    List.Chain' (fun a b => ¬(pyIsSpace a = true ∧ pyIsSpace b = true))
      (DocxTextExtractor.clean_text t) ∧
    (∀ a, (DocxTextExtractor.clean_text t).head? = some a →
      pyIsSpace a = false) ∧
    (∀ a, (DocxTextExtractor.clean_text t).getLast? = some a →
      pyIsSpace a = false) :=
  ⟨clean_text_allowed t, chain'_of_wsNorm (clean_text_wsNorm t),
   fun _ h => clean_text_head_nonspace h,
   fun _ h => clean_text_getLast_nonspace h⟩

/-- C10: the three scripts' cleaning functions are extensionally equal —
for every input `T` the DOCX, HTML and PDF `clean_text` agree (their
bodies are byte-identical in the source). -/
theorem claim_C10_clean_equal (t : List Char) :
    DocxTextExtractor.clean_text t = HtmlTextExtractor.clean_text t ∧
    HtmlTextExtractor.clean_text t = PdfTextExtractor.clean_text t :=
  ⟨rfl, rfl⟩

/-- C6: PDF extraction keeps exactly the pages whose extracted text is
non-empty after trimming, in page order, joined with newline; for a
3-page document where page 2 yields only whitespace, the joined text
before cleaning is exactly page 1, one newline, page 3. -/
theorem claim_C6_pdf_page_filter :
    (∀ pages, PdfTextExtractor.joined_pdf_text pages =
      joinNl (pages.filter fun p => !(stripList p).isEmpty)) ∧
    (∀ p1 p2 p3 : List Char, (stripList p1).isEmpty = false →
      (stripList p2).isEmpty = true → (stripList p3).isEmpty = false →
      PdfTextExtractor.joined_pdf_text [p1, p2, p3] = p1 ++ '\n' :: p3) := by
  constructor
  · intro pages
    rw [PdfTextExtractor.joined_pdf_text, collectPages_eq_filter]
  · intro p1 p2 p3 h1 h2 h3
    simp [PdfTextExtractor.joined_pdf_text, PdfTextExtractor.collectPages,
      h1, h2, h3, joinNl]

/-- Witness for C6: a concrete 3-page document where page 2 is a single
space produces exactly page 1, newline, page 3. -/
theorem claim_C6_witness :
    PdfTextExtractor.joined_pdf_text [['a'], [' '], ['c']] =
      ['a'] ++ '\n' :: ['c'] :=
  claim_C6_pdf_page_filter.2 ['a'] [' '] ['c'] (by decide) (by decide)
    (by decide)

/-- C7: the combined corpus is the blocks `=== {key} ===\n{text}\n` in
insertion order joined by `'\n'`; for keys `a`, `b` with texts `X`, `Y`
the content is exactly `=== a ===\nX\n\n=== b ===\nY\n`. -/
theorem claim_C7_combined_format (a b X Y : List Char) :
    DocxTextExtractor.create_combined_dataset [(a, X), (b, Y)] =
      ['=', '=', '=', ' '] ++ a ++ [' ', '=', '=', '=', '\n'] ++ X ++
        ['\n', '\n'] ++
      ['=', '=', '=', ' '] ++ b ++ [' ', '=', '=', '=', '\n'] ++ Y ++
        ['\n'] := by
  simp [DocxTextExtractor.create_combined_dataset,
    DocxTextExtractor.combinedBlock, joinNl]

/-- C9: if the batch yields zero usable results, `main` returns before
any output stage — no per-file text, no combined corpus, no metadata
table is written. -/
theorem claim_C9_no_output_when_empty
    (files : List (List Char × List (List Char)))
    (h : DocxTextExtractor.process_all_docx_files files = []) :
    DocxTextExtractor.main_run files = [] := by
  unfold DocxTextExtractor.main_run
  simp [h]

/-- Witness for C9: one discovered file whose only paragraph is a
single space yields an empty mapping and an empty write list. -/
theorem claim_C9_witness :
    DocxTextExtractor.main_run [(['a'], [[' ']])] = [] :=
  claim_C9_no_output_when_empty [(['a'], [[' ']])] (by decide)

/-- Counterexample to C1 as stated: a document whose `<article>` element
contains no paragraphs at all, next to a `story-content` div with text
`X`.  Rule (a) finds nothing, so the claim predicts the `story-content`
text `X`; the code commits to the article branch on element presence
alone and extracts the empty string. -/
theorem claim_C1_counterexample :
    HtmlTextExtractor.extract_text_from_html
      (HForest.elemCons ['a', 'r', 't', 'i', 'c', 'l', 'e'] [] HForest.nil
        (HForest.elemCons ['d', 'i', 'v']
          [['s', 't', 'o', 'r', 'y', '-', 'c', 'o', 'n', 't', 'e', 'n', 't']]
          (HForest.textCons ['X'] HForest.nil) HForest.nil)) = [] ∧
    HtmlTextExtractor.clean_text ['X'] = ['X'] ∧
    ([] : List Char) ≠ ['X'] := by
  refine ⟨by decide, by decide, by decide⟩

/-- C1 amended: the fallback chain dispatches on ELEMENT PRESENCE, not
on whether the earlier rule found text.  If an `<article>` element
exists, its paragraph rule is used exclusively — in particular, an
`<article>` with no non-empty paragraphs yields the empty extraction
even when a `story-content` div, `<body>`, or document text exists.
The `story-content` text is used only when no `<article>` element
exists; `<body>` only when neither exists; the whole document only when
none of the three elements exists. -/
theorem claim_C1_amended (doc : HForest) :
    (∀ tg cl kids,
      HForest.findElem HtmlTextExtractor.isArticle
        (HForest.stripScriptStyle doc) = some (tg, cl, kids) →
      HtmlTextExtractor.articleParagraphText kids = [] →
      HtmlTextExtractor.extract_text_from_html doc = []) ∧
    (HForest.findElem HtmlTextExtractor.isArticle
        (HForest.stripScriptStyle doc) = none →
      ∀ tg cl kids,
        HForest.findElem HtmlTextExtractor.isStoryContent
          (HForest.stripScriptStyle doc) = some (tg, cl, kids) →
        HtmlTextExtractor.extract_text_from_html doc =
          HtmlTextExtractor.clean_text (HForest.getText kids)) ∧
    (HForest.findElem HtmlTextExtractor.isArticle
        (HForest.stripScriptStyle doc) = none →
      HForest.findElem HtmlTextExtractor.isStoryContent
        (HForest.stripScriptStyle doc) = none →
      ∀ tg cl kids,
        HForest.findElem HtmlTextExtractor.isBody
          (HForest.stripScriptStyle doc) = some (tg, cl, kids) →
        HtmlTextExtractor.extract_text_from_html doc =
          HtmlTextExtractor.clean_text (HForest.getText kids)) ∧
    (HForest.findElem HtmlTextExtractor.isArticle
        (HForest.stripScriptStyle doc) = none →
      HForest.findElem HtmlTextExtractor.isStoryContent
        (HForest.stripScriptStyle doc) = none →
      HForest.findElem HtmlTextExtractor.isBody
        (HForest.stripScriptStyle doc) = none →
      HtmlTextExtractor.extract_text_from_html doc =
        HtmlTextExtractor.clean_text
          (HForest.getText (HForest.stripScriptStyle doc))) := by
  refine ⟨?_, ?_, ?_, ?_⟩
  · intro tg cl kids hfind hempty
    unfold HtmlTextExtractor.extract_text_from_html
      HtmlTextExtractor.selected_html_text
    simp only [hfind, hempty]
    rfl
  · intro hnone tg cl kids hfind
    unfold HtmlTextExtractor.extract_text_from_html
      HtmlTextExtractor.selected_html_text
    simp only [hnone, hfind]
  · intro hnone1 hnone2 tg cl kids hfind
    unfold HtmlTextExtractor.extract_text_from_html
      HtmlTextExtractor.selected_html_text
    simp only [hnone1, hnone2, hfind]
  · intro hnone1 hnone2 hnone3
    unfold HtmlTextExtractor.extract_text_from_html
      HtmlTextExtractor.selected_html_text
    simp only [hnone1, hnone2, hnone3]

/-- Witness for C1 amended: on the document of the counterexample (an
empty `<article>` next to a `story-content` div holding `X`), the
article branch applies and the extraction is empty. -/
theorem claim_C1_amended_witness :
    HtmlTextExtractor.extract_text_from_html
      (HForest.elemCons ['a', 'r', 't', 'i', 'c', 'l', 'e'] [] HForest.nil
        (HForest.elemCons ['d', 'i', 'v']
          [['s', 't', 'o', 'r', 'y', '-', 'c', 'o', 'n', 't', 'e', 'n', 't']]
          (HForest.textCons ['X'] HForest.nil) HForest.nil)) = [] :=
  (claim_C1_amended
      (HForest.elemCons ['a', 'r', 't', 'i', 'c', 'l', 'e'] [] HForest.nil
        (HForest.elemCons ['d', 'i', 'v']
          [['s', 't', 'o', 'r', 'y', '-', 'c', 'o', 'n', 't', 'e', 'n', 't']]
          (HForest.textCons ['X'] HForest.nil) HForest.nil))).1
    ['a', 'r', 't', 'i', 'c', 'l', 'e'] [] HForest.nil (by decide) (by decide)

/-- Counterexample to C3 as stated: `str.replace` rewrites every
occurrence, and `.replace('.htm', '')` runs before
`.replace('.html', '')`, so the relative path `foo.html` gets the key
`fool`, not `foo` — the extension is not stripped "exactly from the
end, leaving the rest unchanged". -/
theorem claim_C3_counterexample :
    html_file_key ['f', 'o', 'o', '.', 'h', 't', 'm', 'l'] =
      ['f', 'o', 'o', 'l'] ∧
    ['f', 'o', 'o', 'l'] ≠ ['f', 'o', 'o'] := by
  refine ⟨by decide, by decide⟩

/-- C3 amended: the key is the relative path with every `/` and `\`
replaced by `_` and then every occurrence of the extension substring
removed (`.htm` before `.html` for HTML).  When the extension occurs
only as the final suffix of the flattened path, this equals stripping
it from the end — except for `.html` files, whose key keeps a residual
trailing `l` because `.htm` is removed first. -/
theorem claim_C3_amended :
    (∀ p r, pyReplace (pyReplace p ['\\'] ['_']) ['/'] ['_'] =
        r ++ ['.', 'p', 'd', 'f'] →
      containsSub ['.', 'p', 'd', 'f'] (r ++ ['.', 'p', 'd']) = false →
      pdf_file_key p = r) ∧
    (∀ p r, pyReplace (pyReplace p ['\\'] ['_']) ['/'] ['_'] =
        r ++ ['.', 'h', 't', 'm'] →
      containsSub ['.', 'h', 't', 'm'] (r ++ ['.', 'h', 't']) = false →
      containsSub ['.', 'h', 't', 'm', 'l'] r = false →
      html_file_key p = r) ∧
    (∀ p r, pyReplace (pyReplace p ['\\'] ['_']) ['/'] ['_'] =
        r ++ ['.', 'h', 't', 'm', 'l'] →
      containsSub ['.', 'h', 't', 'm'] (r ++ ['.', 'h', 't']) = false →
      containsSub ['.', 'h', 't', 'm', 'l'] (r ++ ['l']) = false →
      html_file_key p = r ++ ['l']) := by
  refine ⟨?_, ?_, ?_⟩
  · intro p r hflat hno
    unfold pdf_file_key
    rw [hflat]
    exact pyReplace_strip_end (by decide) hno
  · intro p r hflat hno1 hno2
    unfold html_file_key
    rw [hflat]
    rw [pyReplace_strip_end (by decide) hno1]
    exact pyReplace_of_not_contains hno2
  · intro p r hflat hno1 hno2
    unfold html_file_key
    rw [hflat]
    have hsplit : r ++ ['.', 'h', 't', 'm', 'l'] =
        r ++ ['.', 'h', 't', 'm'] ++ ['l'] := by simp
    rw [hsplit]
    rw [pyReplace_strip (by decide) hno1 (by decide)]
    exact pyReplace_of_not_contains hno2

/-- Witness for C3 amended: the nested path `a/b.pdf` flattens to
`a_b.pdf` and gets the key `a_b`. -/
theorem claim_C3_amended_witness :
    pdf_file_key ['a', '/', 'b', '.', 'p', 'd', 'f'] = ['a', '_', 'b'] :=
  claim_C3_amended.1 ['a', '/', 'b', '.', 'p', 'd', 'f'] ['a', '_', 'b']
    (by decide) (by decide)

/-- Counterexample to C4 as stated: a file whose two paragraphs are `a`
and `b` joins to the raw text `a\nb`, which has 2 newline-separated
segments before cleaning; the recorded `line_count` is computed from
the CLEANED text (`a b`) and equals 1. -/
theorem claim_C4_counterexample :
    (splitOnNl (joinNl
      (DocxTextExtractor.collectParas [['a'], ['b']]))).length = 2 ∧
    DocxTextExtractor.create_metadata
      (DocxTextExtractor.process_all_docx_files [(['k'], [['a'], ['b']])]) =
      [⟨['k'], 3, 2, 1⟩] ∧
    (1 : Nat) ≠ 2 := by
  refine ⟨by decide, by decide, by decide⟩

/-- C4 amended: every metadata row is derived deterministically from
the stored CLEANED text — `character_count` is its length,
`word_count` its whitespace-split token count, and `line_count` its
count of newline-separated segments, which is always 1 because
cleaning collapses every newline. -/
theorem claim_C4_amended (files : List (List Char × List (List Char)))
    (r : DocxTextExtractor.MetadataRecord)
    (hr : r ∈ DocxTextExtractor.create_metadata
      (DocxTextExtractor.process_all_docx_files files)) :
    (∃ k t, (k, t) ∈ DocxTextExtractor.process_all_docx_files files ∧
      r.filename = k ∧ r.character_count = t.length ∧
      r.word_count = (pySplit t).length ∧
      r.line_count = (splitOnNl t).length) ∧
    r.line_count = 1 := by
  unfold DocxTextExtractor.create_metadata at hr
  rcases List.mem_map.1 hr with ⟨⟨k, t⟩, hmem, rfl⟩
  obtain ⟨ps, -, ht⟩ := mem_process_all hmem
  have hnl : '\n' ∉ t := by
    rw [ht]
    exact newline_not_mem_clean _
  have hone : (splitOnNl t).length = 1 := by
    rw [splitOnNl_eq_of_not_mem hnl]
    rfl
  exact ⟨⟨k, t, hmem, rfl, rfl, rfl, rfl⟩, hone⟩

/-- Witness for C4 amended: the metadata row of the two-paragraph file
from the counterexample is derived from its cleaned text and has
`line_count = 1`. -/
theorem claim_C4_amended_witness :
    (∃ k t, (k, t) ∈ DocxTextExtractor.process_all_docx_files
        [(['k'], [['a'], ['b']])] ∧
      (DocxTextExtractor.MetadataRecord.mk ['k'] 3 2 1).filename = k ∧
      (DocxTextExtractor.MetadataRecord.mk ['k'] 3 2 1).character_count =
        t.length ∧
      (DocxTextExtractor.MetadataRecord.mk ['k'] 3 2 1).word_count =
        (pySplit t).length ∧
      (DocxTextExtractor.MetadataRecord.mk ['k'] 3 2 1).line_count =
        (splitOnNl t).length) ∧
    (DocxTextExtractor.MetadataRecord.mk ['k'] 3 2 1).line_count = 1 :=
  claim_C4_amended [(['k'], [['a'], ['b']])] ⟨['k'], 3, 2, 1⟩ (by decide)

/-- C8: the batch runner never stores an empty string — the result
mapping is exactly the extracted files filtered to those whose cleaned
text is non-empty; with two files cleaning to empty and one cleaning to
`Hello world`, the mapping has exactly one entry and the metadata table
exactly one row with `word_count = 2`. -/
theorem claim_C8_no_empty_entries :
    (∀ files, DocxTextExtractor.process_all_docx_files files =
      (files.map fun f =>
        (f.1, DocxTextExtractor.extract_text_from_docx f.2)).filter
        fun e => !e.2.isEmpty) ∧
    (∀ n1 n2 n3 f1 f2 f3,
      DocxTextExtractor.extract_text_from_docx f1 = [] →
      DocxTextExtractor.extract_text_from_docx f2 = [] →
      DocxTextExtractor.extract_text_from_docx f3 =
        ['H', 'e', 'l', 'l', 'o', ' ', 'w', 'o', 'r', 'l', 'd'] →
      DocxTextExtractor.process_all_docx_files
          [(n1, f1), (n2, f2), (n3, f3)] =
        [(n3, ['H', 'e', 'l', 'l', 'o', ' ', 'w', 'o', 'r', 'l', 'd'])] ∧
      DocxTextExtractor.create_metadata
          (DocxTextExtractor.process_all_docx_files
            [(n1, f1), (n2, f2), (n3, f3)]) =
        [⟨n3, 11, 2, 1⟩]) := by
  constructor
  · exact process_all_eq_filter
  · intro n1 n2 n3 f1 f2 f3 h1 h2 h3
    have hmap : DocxTextExtractor.process_all_docx_files
        [(n1, f1), (n2, f2), (n3, f3)] =
        [(n3, ['H', 'e', 'l', 'l', 'o', ' ', 'w', 'o', 'r', 'l', 'd'])] := by
      simp [DocxTextExtractor.process_all_docx_files, h1, h2, h3]
    refine ⟨hmap, ?_⟩
    rw [hmap]
    rfl

/-- Witness for C8: two concrete files cleaning to empty (a lone-space
paragraph; no paragraphs) and one cleaning to `Hello world`. -/
theorem claim_C8_witness :
    DocxTextExtractor.process_all_docx_files
        [(['a'], [[' ']]), (['b'], []),
         (['c'], [['H', 'e', 'l', 'l', 'o', ' ', 'w', 'o', 'r', 'l', 'd']])] =
      [(['c'], ['H', 'e', 'l', 'l', 'o', ' ', 'w', 'o', 'r', 'l', 'd'])] ∧
    DocxTextExtractor.create_metadata
        (DocxTextExtractor.process_all_docx_files
          [(['a'], [[' ']]), (['b'], []),
           (['c'],
            [['H', 'e', 'l', 'l', 'o', ' ', 'w', 'o', 'r', 'l', 'd']])]) =
      [⟨['c'], 11, 2, 1⟩] :=
  claim_C8_no_empty_entries.2 ['a'] ['b'] ['c'] [[' ']] []
    [['H', 'e', 'l', 'l', 'o', ' ', 'w', 'o', 'r', 'l', 'd']]
    (by decide) (by decide) (by decide)

end NWP
